import Mathlib

/-!
Verification of the finite-MDP solver core of the `rl` package
(`rl/mdp/base.py`, `rl/mdp/solve.py`), via a shallow embedding into Lean.

Modelling conventions:
* Python floats are modelled as rationals (`ℚ`); all arithmetic is exact.
* `Mapping[State, float]` value dictionaries become total functions `S → ℚ`.
* NumPy value arrays become `List ℚ`; reads `arr[i]` become `List.getD i 0`
  (all reads performed by the embedded code are in bounds whenever the MDP
  is well formed, so the default is never consulted in the verified runs).
* In-place mutation becomes explicit state passing: a Python routine that
  mutates `v`/`pi` and returns `niter` becomes a Lean function returning the
  final `v`/`pi` together with `niter`.
* `warnings.warn` calls are modelled by a `Bool` flag in the result
  (`true` = the warning was emitted); `raise` becomes `Except`/`Option`.
* A Python `for`-loop over `range(1, maxiter+1)` whose loop variable is
  read after the loop is modelled with result type `Option _`: for
  `maxiter = 0` the loop body never runs, the loop variable is unbound and
  the trailing `return niter` raises `NameError`, modelled as `none`.
-/

namespace RLSpec

variable {S A : Type} [DecidableEq S] [Inhabited S] [DecidableEq A]

/-- Shallow embedding of the `FiniteMDP` contract of `rl/mdp/base.py`:
`states` is the ordered finite state list, `actions s` the legal actions in
`s`, and `next_states_and_rewards s a` returns the probability table for
next states (paired lists of states and probabilities, as in the Python
`NextStateProbabilityTable`) together with the scalar expected reward. -/
structure FiniteMDP (S A : Type) where
  states : List S
  actions : S → List A
  next_states_and_rewards : S → A → (List S × List ℚ) × ℚ

/-- `FiniteMDP.s2i` of `base.py`: `self.states.index(state)`. -/
def FiniteMDP.s2i (M : FiniteMDP S A) (state : S) : ℕ :=
  M.states.indexOf state

/-- `FiniteMDP.i2s` of `base.py`: `self.states[index]`.  Python raises
`IndexError` out of bounds; the model returns `default` there (all verified
uses are in bounds). -/
def FiniteMDP.i2s (M : FiniteMDP S A) (index : ℕ) : S :=
  M.states.getD index default

/-- `backup_action_value` of `solve.py`:
`(nss, ps), exp_r = mdp.next_states_and_rewards(state, action)` followed by
`exp_r + gamma * sum(p * v[ns] for ns, p in zip(nss, ps))`. -/
def backup_action_value (M : FiniteMDP S A) (state : S) (action : A)
    (v : S → ℚ) (gamma : ℚ) : ℚ :=
  (M.next_states_and_rewards state action).2
    + gamma *
      (((M.next_states_and_rewards state action).1.1.zip
          (M.next_states_and_rewards state action).1.2).map
        (fun p => p.2 * v p.1)).sum

/-- Transition table of the 3-state regression MDP `SimpleMDP` from
`tests/mdp/conftest.py` (`_transitions`): entries are
`(next_state, probability, reward)`. -/
def simple_transitions : String → String → List (String × ℚ × ℚ)
  | "A", "R" => [("B", 3/4, -1), ("C", 1/4, 1)]
  | "A", "L" => [("C", 3/4, 1), ("B", 1/4, -1)]
  | "B", "R" => [("C", 3/4, 1), ("A", 1/4, -1)]
  | "B", "L" => [("A", 3/4, -1), ("C", 1/4, 1)]
  | "C", "R" => [("C", 1, 0)]
  | "C", "L" => [("C", 1, 0)]
  | _, _ => []

/-- The `SimpleMDP` fixture of `tests/mdp/conftest.py`: three states
`A`, `B`, `C`, actions `R`, `L` in every state, and
`next_states_and_rewards` assembling the paired probability table and the
expected reward `sum(p * r)` from the transition triples. -/
def SimpleMDP : FiniteMDP String String where
  states := ["A", "B", "C"]
  actions := fun _ => ["R", "L"]
  next_states_and_rewards := fun state action =>
    let transitions := simple_transitions state action
    ((transitions.map (fun t => t.1), transitions.map (fun t => t.2.1)),
      (transitions.map (fun t => t.2.1 * t.2.2)).sum)

/-- The state-value fixture `v = {"A": 3.0, "B": 1.0, "C": 0.0}` of
`tests/mdp/test_solve.py`. -/
def v_fixture : String → ℚ := fun s =>
  if s = "A" then 3 else if s = "B" then 1 else 0

/-- The stochastic-policy fixture of `tests/mdp/test_solve.py`:
`{"A": (("L", 0.6), ("R", 0.4)), "B": (("L", 1.0),), "C": (("L", 1.0),)}`. -/
def pi_fixture : String → List (String × ℚ) := fun s =>
  if s = "A" then [("L", 3/5), ("R", 2/5)] else [("L", 1)]

/-- `np.isclose(a, b)` at NumPy's default tolerances `rtol = 1e-05` and
`atol = 1e-08`: true iff `|a - b| <= atol + rtol * |b|`. -/
def np_isclose (a b : ℚ) : Bool :=
  decide (|a - b| ≤ 1/100000000 + 1/100000 * |b|)

/-- `backup_single_state_optimal_actions` of `solve.py`: computes
`all_action_values` for every legal action via `backup_action_value`, takes
`max(all_action_values)` (Python `max` raises on an empty list, modelled as
`none`), marks each action with `np.isclose(value, max)` and keeps the
marked ones. -/
def backup_single_state_optimal_actions (M : FiniteMDP S A) (state : S)
    (v : S → ℚ) (gamma : ℚ) : Option (List A × ℚ) :=
  match (M.actions state).map
      (fun action => backup_action_value M state action v gamma) with
  | [] => none
  | q :: qs =>
      some (((M.actions state).zip
          ((q :: qs).map (fun x => np_isclose x (qs.foldl max q)))).filterMap
            (fun p => bif p.2 then some p.1 else none),
        qs.foldl max q)

/-- A one-state, two-action MDP probing the tie tolerance of
`backup_single_state_optimal_actions`: with `v = 0` and `gamma = 0`, action
`0` has backed-up value `100` and action `1` has backed-up value
`99.9995 = 199999/2000`. -/
def TolMDP : FiniteMDP ℕ ℕ where
  states := [0]
  actions := fun _ => [0, 1]
  next_states_and_rewards := fun _ action =>
    (([0], [1]), if action = 0 then 100 else 199999/2000)

/-- Pointwise `+=` on a NumPy vector modelled as a function: add `q` at
index `i`. -/
def addAt (f : ℕ → ℚ) (i : ℕ) (q : ℚ) : ℕ → ℚ :=
  fun j => if j = i then f j + q else f j

/-- Pointwise `+=` on a NumPy matrix modelled as a function: add `q` at
entry `(i, j)`. -/
def addAt2 (g : ℕ → ℕ → ℚ) (i j : ℕ) (q : ℚ) : ℕ → ℕ → ℚ :=
  fun i' j' => if i' = i ∧ j' = j then g i' j' + q else g i' j'

/-- `backup_policy_values_operator` of `solve.py`: for each state `s` and
each `(a, p_a)` in `pi(s)`, adds `p_a * r` to the expected-rewards vector at
`s2i(s)` once per action, and `gamma * p_a * p_ns` to the discounted
transitions matrix at `(s2i(s), s2i(ns))` for each `(ns, p_ns)` in the
probability table.  Arrays start at `np.zeros`; the result is the pair
`(discounted_transitions_matrix, expected_rewards_vector)`. -/
def backup_policy_values_operator (M : FiniteMDP S A) (gamma : ℚ)
    (pi : S → List (A × ℚ)) : (ℕ → ℕ → ℚ) × (ℕ → ℚ) :=
  M.states.foldl
    (fun acc s =>
      (pi s).foldl
        (fun acc2 ap =>
          (((M.next_states_and_rewards s ap.1).1.1.zip
              (M.next_states_and_rewards s ap.1).1.2).foldl
            (fun Amat nsp =>
              addAt2 Amat (M.s2i s) (M.s2i nsp.1) (gamma * ap.2 * nsp.2))
            acc2.1,
            addAt acc2.2 (M.s2i s)
              (ap.2 * (M.next_states_and_rewards s ap.1).2)))
        acc)
    (fun _ _ => 0, fun _ => 0)

/-- `FiniteMDP.backup_policy_values_operator` of `base.py`: same loops, but
the rewards vector accumulates `p_a * p_ns * r` once per next state inside
the inner loop rather than `p_a * r` once per action. -/
def FiniteMDP.backup_policy_values_operator (M : FiniteMDP S A) (gamma : ℚ)
    (pi : S → List (A × ℚ)) : (ℕ → ℕ → ℚ) × (ℕ → ℚ) :=
  M.states.foldl
    (fun acc s =>
      (pi s).foldl
        (fun acc2 ap =>
          ((M.next_states_and_rewards s ap.1).1.1.zip
              (M.next_states_and_rewards s ap.1).1.2).foldl
            (fun acc3 nsp =>
              (addAt2 acc3.1 (M.s2i s) (M.s2i nsp.1) (gamma * ap.2 * nsp.2),
                addAt acc3.2 (M.s2i s)
                  (ap.2 * nsp.2 * (M.next_states_and_rewards s ap.1).2)))
            acc2)
        acc)
    (fun _ _ => 0, fun _ => 0)

/-- The per-action sum of the inner loop of `backup_optimal_values`:
`sum(p_ns * (r + gamma * initial_values[mdp.s2i(ns)]) for ns, p_ns in
zip(*ns_ptable))`. -/
def optimal_value_action_sum (M : FiniteMDP S A) (s : S) (a : A)
    (initial_values : List ℚ) (gamma : ℚ) : ℚ :=
  (((M.next_states_and_rewards s a).1.1.zip
      (M.next_states_and_rewards s a).1.2).map
    (fun nsp => nsp.2 * ((M.next_states_and_rewards s a).2
      + gamma * initial_values.getD (M.s2i nsp.1) 0))).sum

/-- The `greatest_action_value` running maximum of `backup_optimal_values`:
starts at `-np.inf` (the `⊥` of `WithBot ℚ`) and folds `max` over the
per-action sums. -/
def greatest_action_value (M : FiniteMDP S A) (s : S)
    (initial_values : List ℚ) (gamma : ℚ) : WithBot ℚ :=
  (M.actions s).foldl
    (fun g a => max g ↑(optimal_value_action_sum M s a initial_values gamma))
    ⊥

/-- `backup_optimal_values` of `solve.py`, generalised over the order in
which the state loop visits the states (the source iterates over
`mdp.states`; this parameter is used to express order-independence):
`updated_values = np.zeros(len(mdp.states))` followed by
`updated_values[mdp.s2i(s)] = greatest_action_value` for each `s`.  A state
with no legal actions would receive float `-inf` in the source; the model
writes the junk value 0 there (`WithBot.unbot' 0`), and every theorem about
this function assumes at least one legal action per relevant state, where
the model and the source agree. -/
def backup_optimal_values_sweep (M : FiniteMDP S A) (order : List S)
    (initial_values : List ℚ) (gamma : ℚ) : List ℚ :=
  order.foldl
    (fun updated_values s =>
      updated_values.set (M.s2i s)
        ((greatest_action_value M s initial_values gamma).unbot' 0))
    (List.replicate M.states.length 0)

/-- `backup_optimal_values` of `solve.py`: the sweep in the source's own
state order. -/
def backup_optimal_values (M : FiniteMDP S A) (initial_values : List ℚ)
    (gamma : ℚ) : List ℚ :=
  backup_optimal_values_sweep M M.states initial_values gamma

/-- A one-state, one-action MDP with a certain self-loop and reward 1:
`v* = [2]` is the exact optimum at `gamma = 1/2`. -/
def LoopMDP : FiniteMDP ℕ ℕ where
  states := [0]
  actions := fun _ => [0]
  next_states_and_rewards := fun _ _ => (([0], [1]), 1)

/-- Pointwise update of a caller-owned mapping (dict assignment
`m[s] = q`). -/
def updateFun {β : Type} (m : S → β) (s : S) (q : β) : S → β :=
  fun t => if t = s then q else m t

/-- `backup_single_state_value` of `solve.py`: expectation of
`backup_action_value` over the policy's action distribution,
`sum(p_a * backup_action_value(mdp, state, a, v, gamma) for a, p_a in
pi(state))`. -/
def backup_single_state_value (M : FiniteMDP S A) (state : S) (v : S → ℚ)
    (gamma : ℚ) (pi : S → List (A × ℚ)) : ℚ :=
  ((pi state).map
    (fun ap => ap.2 * backup_action_value M state ap.1 v gamma)).sum

/-- One sweep of `iterative_policy_evaluation`: for each state in order,
`v[s] = backup_single_state_value(...)` in place (Gauss-Seidel: later
states see earlier updates within the sweep), tracking
`delta_v = max(delta_v, abs(v[s] - v_old))`. -/
def ipe_sweep (M : FiniteMDP S A) (gamma : ℚ) (pi : S → List (A × ℚ))
    (v : S → ℚ) : (S → ℚ) × ℚ :=
  M.states.foldl
    (fun acc s =>
      (updateFun acc.1 s (backup_single_state_value M s acc.1 gamma pi),
        max acc.2 |backup_single_state_value M s acc.1 gamma pi - acc.1 s|))
    (v, 0)

/-- The break test of `iterative_policy_evaluation`:
`tol is not None and delta_v < tol`. -/
def tol_break (tol : Option ℚ) (delta_v : ℚ) : Bool :=
  match tol with
  | none => false
  | some t => decide (delta_v < t)

/-- The `for niter in range(1, maxiter+1)`/`else` loop of
`iterative_policy_evaluation`, with `remaining` further sweeps permitted
after the current one; returns the final `v`, the loop variable `niter`,
and whether the convergence warning was emitted. -/
def ipe_loop (M : FiniteMDP S A) (gamma : ℚ) (pi : S → List (A × ℚ))
    (tol : Option ℚ) : ℕ → (S → ℚ) → ℕ → (S → ℚ) × ℕ × Bool
  | 0, v, niter =>
      if tol_break tol (ipe_sweep M gamma pi v).2 then
        ((ipe_sweep M gamma pi v).1, niter, false)
      else
        ((ipe_sweep M gamma pi v).1, niter, tol.isSome)
  | r + 1, v, niter =>
      if tol_break tol (ipe_sweep M gamma pi v).2 then
        ((ipe_sweep M gamma pi v).1, niter, false)
      else
        ipe_loop M gamma pi tol r (ipe_sweep M gamma pi v).1 (niter + 1)

/-- `iterative_policy_evaluation` of `solve.py`.  With `maxiter = 0` the
`for` loop body never runs and the trailing `return niter` reads an unbound
loop variable (`NameError`), modelled as `none`. -/
def iterative_policy_evaluation (v : S → ℚ) (M : FiniteMDP S A) (gamma : ℚ)
    (pi : S → List (A × ℚ)) (tol : Option ℚ) (maxiter : ℕ) :
    Option ((S → ℚ) × ℕ × Bool) :=
  match maxiter with
  | 0 => none
  | m + 1 => some (ipe_loop M gamma pi tol m v 1)

/-- The loop body of a `value_iteration` sweep: for one state,
`v_old = v[s]`, then `_, v[s] = backup_single_state_optimal_actions(...)`
in place, then `delta_v = max(delta_v, abs(v_old - v[s]))`.  A state with
no legal action makes Python's `max` raise, modelled as `none`. -/
def vi_step (M : FiniteMDP S A) (gamma : ℚ)
    (acc : Option ((S → ℚ) × ℚ)) (s : S) : Option ((S → ℚ) × ℚ) :=
  match acc with
  | none => none
  | some (w, delta_v) =>
      match backup_single_state_optimal_actions M s w gamma with
      | none => none
      | some (_, q) =>
          some (updateFun w s q, max delta_v |w s - q|)

/-- One sweep of `value_iteration` over all states. -/
def vi_sweep (M : FiniteMDP S A) (gamma : ℚ) (v : S → ℚ) :
    Option ((S → ℚ) × ℚ) :=
  M.states.foldl (vi_step M gamma) (some (v, 0))

/-- The `for`/`else` loop of `value_iteration`. -/
def vi_loop (M : FiniteMDP S A) (gamma : ℚ) (tol : ℚ) :
    ℕ → (S → ℚ) → ℕ → Option ((S → ℚ) × ℕ × Bool)
  | 0, v, niter =>
      match vi_sweep M gamma v with
      | none => none
      | some (v', delta_v) =>
          if delta_v < tol then some (v', niter, false)
          else some (v', niter, true)
  | r + 1, v, niter =>
      match vi_sweep M gamma v with
      | none => none
      | some (v', delta_v) =>
          if delta_v < tol then some (v', niter, false)
          else vi_loop M gamma tol r v' (niter + 1)

/-- `value_iteration` of `solve.py` (same `maxiter = 0` convention as
`iterative_policy_evaluation`). -/
def value_iteration (v : S → ℚ) (M : FiniteMDP S A) (gamma : ℚ) (tol : ℚ)
    (maxiter : ℕ) : Option ((S → ℚ) × ℕ × Bool) :=
  match maxiter with
  | 0 => none
  | m + 1 => vi_loop M gamma tol m v 1

/-- The loop body of the policy-improvement sweep of `policy_iteration`:
for one state, `old_a = pi[s]`;
`new_as, _ = backup_single_state_optimal_actions(...)`; and if
`old_a not in new_as`, mark the policy unstable and set
`pi[s] = new_as[0]` (indexing an empty list would raise, modelled as
`none`; the optimal-action list is provably never empty). -/
def pimp_step (M : FiniteMDP S A) (gamma : ℚ) (v : S → ℚ)
    (acc : Option ((S → A) × Bool)) (s : S) : Option ((S → A) × Bool) :=
  match acc with
  | none => none
  | some (p, policy_stable) =>
      match backup_single_state_optimal_actions M s v gamma with
      | none => none
      | some (new_as, _) =>
          if p s ∈ new_as then some (p, policy_stable)
          else
            match new_as with
            | [] => none
            | a :: _ => some (updateFun p s a, false)

/-- The policy-improvement sweep of `policy_iteration` over all states,
starting from `policy_stable = True`. -/
def pimp_sweep (M : FiniteMDP S A) (gamma : ℚ) (v : S → ℚ) (pi : S → A) :
    Option ((S → A) × Bool) :=
  M.states.foldl (pimp_step M gamma v) (some (pi, true))

/-- The outer `for`/`else` loop of `policy_iteration`: improvement sweep,
break if stable, otherwise a full `iterative_policy_evaluation` at the
updated deterministic policy (`tol` set, default `maxiter = 100`). -/
def policy_iteration_loop (M : FiniteMDP S A) (gamma : ℚ) (tol : ℚ) :
    ℕ → (S → ℚ) → (S → A) → ℕ → Option ((S → ℚ) × (S → A) × ℕ × Bool)
  | 0, v, pi, niter =>
      match pimp_sweep M gamma v pi with
      | none => none
      | some (pi', policy_stable) =>
          if policy_stable then some (v, pi', niter, false)
          else
            match iterative_policy_evaluation v M gamma
                (fun s => [(pi' s, 1)]) (some tol) 100 with
            | none => none
            | some (v', _, _) => some (v', pi', niter, true)
  | r + 1, v, pi, niter =>
      match pimp_sweep M gamma v pi with
      | none => none
      | some (pi', policy_stable) =>
          if policy_stable then some (v, pi', niter, false)
          else
            match iterative_policy_evaluation v M gamma
                (fun s => [(pi' s, 1)]) (some tol) 100 with
            | none => none
            | some (v', _, _) =>
                policy_iteration_loop M gamma tol r v' pi' (niter + 1)

/-- `policy_iteration` of `solve.py` (same `maxiter = 0` convention). -/
def policy_iteration (v : S → ℚ) (pi : S → A) (M : FiniteMDP S A)
    (gamma : ℚ) (tol : ℚ) (maxiter : ℕ) :
    Option ((S → ℚ) × (S → A) × ℕ × Bool) :=
  match maxiter with
  | 0 => none
  | m + 1 => policy_iteration_loop M gamma tol m v pi 1

/-- `exact_optimum_state_values` of `solve.py`, with `scipy.optimize.root`
modelled as an oracle input `(success, xs)` (its convergence flag and
solution array): on failure the function raises
(`raise OptimizeWarning(...)`, modelled as `Except.error`); on success it
returns the dict `{mdp.i2s(idx): val for idx, val in enumerate(x)}`. -/
def exact_optimum_state_values (M : FiniteMDP S A) (success : Bool)
    (xs : List ℚ) : Except String (List (S × ℚ)) :=
  if !success then
    Except.error "Root finding failed to find a solution"
  else
    Except.ok (xs.enum.map (fun p => (M.i2s p.1, p.2)))

/-- The state-value function after one full sweep of
`iterative_policy_evaluation` (discarding the tracked `delta_v`). -/
def ipe_iterate (M : FiniteMDP S A) (gamma : ℚ) (pi : S → List (A × ℚ)) :
    (S → ℚ) → (S → ℚ) :=
  fun w => (ipe_sweep M gamma pi w).1

/-- The maximum absolute state-value change recorded during sweep `k + 1`
of `iterative_policy_evaluation` started from `v`. -/
def ipe_delta (M : FiniteMDP S A) (gamma : ℚ) (pi : S → List (A × ℚ))
    (v : S → ℚ) (k : ℕ) : ℚ :=
  (ipe_sweep M gamma pi ((ipe_iterate M gamma pi)^[k] v)).2

/-- Deterministic all-`L` policy used as a fixture. -/
def piL_fixture : String → String := fun _ => "L"

/-- Sum over a zipped probability table, rewritten as an indexed sum. -/
theorem zip_mul_sum_eq (f : S → ℚ) :
    ∀ (l1 : List S) (l2 : List ℚ), l1.length = l2.length →
      ((l1.zip l2).map (fun p => p.2 * f p.1)).sum
        = ∑ i ∈ Finset.range l1.length, l2.getD i 0 * f (l1.getD i default)
  | [], [], _ => by simp
  | x :: xs, y :: ys, h => by
      simp only [List.zip_cons_cons, List.map_cons, List.sum_cons,
        List.length_cons]
      rw [Finset.sum_range_succ']
      simp only [List.getD_cons_succ, List.getD_cons_zero]
      rw [← zip_mul_sum_eq f xs ys (by simpa using h)]
      ring
  | x :: _, [], h => by simp at h
  | [], _ :: _, h => by simp at h

/-- C1: for every FiniteMDP, state, action, value mapping and gamma (with a
well-formed probability table), `backup_action_value` equals the expected
reward returned by `next_states_and_rewards` plus `gamma` times the sum over
the returned next states of their probability times `v[next_state]`; and on
the 3-state `{A,B,C}` fixture with the regression value function at
`gamma = 0.9`, state `A` and action `L` it reproduces the hand-derived value
`0.75*(1.0 + 0.9*0.0) + 0.25*(-1.0 + 0.9*1.0) = 0.725`. -/
theorem C1_backup_action_value (M : FiniteMDP S A) (state : S) (action : A)
    (v : S → ℚ) (gamma : ℚ)
    (hlen : (M.next_states_and_rewards state action).1.1.length
          = (M.next_states_and_rewards state action).1.2.length) :
    (backup_action_value M state action v gamma
      = (M.next_states_and_rewards state action).2
        + gamma *
          ∑ i ∈ Finset.range (M.next_states_and_rewards state action).1.1.length,
            (M.next_states_and_rewards state action).1.2.getD i 0
              * v ((M.next_states_and_rewards state action).1.1.getD i default)) ∧
    backup_action_value SimpleMDP "A" "L" v_fixture (9/10) = 29/40 ∧
    (29/40 : ℚ) = 3/4 * (1 + 9/10 * 0) + 1/4 * (-1 + 9/10 * 1) := by
  refine ⟨?_, ?_, by norm_num⟩
  · unfold backup_action_value
    rw [zip_mul_sum_eq v _ _ hlen]
  · simp [backup_action_value, SimpleMDP, simple_transitions, v_fixture]
    norm_num

/-- Witness for C1 at the concrete fixture inputs. -/
theorem C1_backup_action_value_witness :
    ((SimpleMDP.next_states_and_rewards "A" "L").1.1.length
        = (SimpleMDP.next_states_and_rewards "A" "L").1.2.length) ∧
    (backup_action_value SimpleMDP "A" "L" v_fixture (9/10)
      = (SimpleMDP.next_states_and_rewards "A" "L").2
        + (9/10) *
          ∑ i ∈ Finset.range (SimpleMDP.next_states_and_rewards "A" "L").1.1.length,
            (SimpleMDP.next_states_and_rewards "A" "L").1.2.getD i 0
              * v_fixture ((SimpleMDP.next_states_and_rewards "A" "L").1.1.getD i default)) ∧
    backup_action_value SimpleMDP "A" "L" v_fixture (9/10) = 29/40 ∧
    (29/40 : ℚ) = 3/4 * (1 + 9/10 * 0) + 1/4 * (-1 + 9/10 * 1) := by
  have hlen : (SimpleMDP.next_states_and_rewards "A" "L").1.1.length
      = (SimpleMDP.next_states_and_rewards "A" "L").1.2.length := by
    simp [SimpleMDP, simple_transitions]
  have h := C1_backup_action_value SimpleMDP "A" "L" v_fixture (9/10) hlen
  exact ⟨hlen, h.1, h.2.1, h.2.2⟩

/-- C9: when `states` has no duplicates, the default `s2i`/`i2s` form a
bijection between states and their positions: for every state `s` in
`states`, `i2s (s2i s) = s`, `s2i s` is `s`'s index in `states` (and in
particular in bounds), and for every index `i < len(states)`,
`s2i (i2s i) = i`. -/
theorem C9_s2i_i2s_bijection (M : FiniteMDP S A) (hnd : M.states.Nodup) :
    (∀ s ∈ M.states,
      M.i2s (M.s2i s) = s ∧ M.s2i s = M.states.indexOf s ∧
        M.s2i s < M.states.length) ∧
    (∀ i, i < M.states.length → M.s2i (M.i2s i) = i) := by
  constructor
  · intro s hs
    have hlt : M.states.indexOf s < M.states.length :=
      List.indexOf_lt_length.mpr hs
    refine ⟨?_, rfl, hlt⟩
    unfold FiniteMDP.i2s FiniteMDP.s2i
    rw [List.getD_eq_getElem _ _ hlt]
    exact List.getElem_indexOf hlt
  · intro i hi
    unfold FiniteMDP.i2s FiniteMDP.s2i
    rw [List.getD_eq_getElem _ _ hi]
    exact List.indexOf_getElem hnd i hi

/-- Witness for C9 on the 3-state fixture MDP. -/
theorem C9_s2i_i2s_bijection_witness :
    SimpleMDP.states.Nodup ∧
    SimpleMDP.i2s (SimpleMDP.s2i "B") = "B" ∧
    SimpleMDP.s2i (SimpleMDP.i2s 2) = 2 := by
  have hnd : SimpleMDP.states.Nodup := by
    simp [SimpleMDP]
  have h := C9_s2i_i2s_bijection SimpleMDP hnd
  refine ⟨hnd, (h.1 "B" (by simp [SimpleMDP])).1, h.2 2 (by simp [SimpleMDP])⟩

theorem np_isclose_iff (a b : ℚ) :
    np_isclose a b = true ↔ |a - b| ≤ 1/100000000 + 1/100000 * |b| := by
  simp [np_isclose]

theorem np_isclose_self (a : ℚ) : np_isclose a a = true := by
  rw [np_isclose_iff]
  have h : |a - a| = 0 := by simp
  rw [h]
  positivity

/-- Folding `max` over a list starting from `q` yields an element of
`q :: qs` that bounds every element of `q :: qs` from above. -/
theorem foldl_max_spec :
    ∀ (qs : List ℚ) (q : ℚ),
      qs.foldl max q ∈ q :: qs ∧ ∀ x ∈ q :: qs, x ≤ qs.foldl max q
  | [], q => by simp
  | y :: ys, q => by
      have ih := foldl_max_spec ys (max q y)
      simp only [List.foldl_cons]
      constructor
      · rcases List.mem_cons.mp ih.1 with h | h
        · rw [h]
          rcases max_choice q y with hm | hm <;> rw [hm] <;> simp
        · exact List.mem_cons_of_mem _ (List.mem_cons_of_mem _ h)
      · intro x hx
        rcases List.mem_cons.mp hx with rfl | hx'
        · exact le_trans (le_max_left x y) (ih.2 _ (List.mem_cons_self _ _))
        · rcases List.mem_cons.mp hx' with rfl | hx''
          · exact le_trans (le_max_right q x) (ih.2 _ (List.mem_cons_self _ _))
          · exact ih.2 x (List.mem_cons_of_mem _ hx'')

/-- Zipping the action list with the `np.isclose` marking of its mapped
values and keeping the marked actions is the same as filtering the action
list on closeness of the action's value. -/
theorem zip_isclose_filterMap (f : A → ℚ) (m : ℚ) :
    ∀ l : List A,
      ((l.zip ((l.map f).map (fun x => np_isclose x m))).filterMap
          (fun p => bif p.2 then some p.1 else none))
        = l.filter (fun a => np_isclose (f a) m)
  | [] => rfl
  | x :: xs => by
      have ih := zip_isclose_filterMap f m xs
      rw [List.map_map] at ih
      simp only [List.map_cons, List.zip_cons_cons, List.filterMap_cons,
        List.filter_cons]
      cases hg : np_isclose (f x) m <;> simp [hg, ih]

/-- Characterisation of `backup_single_state_optimal_actions` on a state
with at least one legal action: it returns the maximum backed-up action
value `m` together with exactly those legal actions whose value satisfies
`np.isclose(value, m)` (in enumeration order). -/
theorem bsoa_spec (M : FiniteMDP S A) (state : S) (v : S → ℚ) (gamma : ℚ)
    (h : M.actions state ≠ []) :
    ∃ m : ℚ,
      backup_single_state_optimal_actions M state v gamma
          = some ((M.actions state).filter
              (fun a => np_isclose (backup_action_value M state a v gamma) m), m)
        ∧ (∀ a ∈ M.actions state, backup_action_value M state a v gamma ≤ m)
        ∧ (∃ a ∈ M.actions state, backup_action_value M state a v gamma = m) := by
  obtain ⟨a0, as, hacts⟩ : ∃ a0 as, M.actions state = a0 :: as :=
    List.exists_cons_of_ne_nil h
  have hspec := foldl_max_spec
    (as.map (fun a => backup_action_value M state a v gamma))
    (backup_action_value M state a0 v gamma)
  refine ⟨(as.map (fun a => backup_action_value M state a v gamma)).foldl max
    (backup_action_value M state a0 v gamma), ?_, ?_, ?_⟩
  · have hzip := zip_isclose_filterMap
      (fun a => backup_action_value M state a v gamma)
      ((as.map (fun a => backup_action_value M state a v gamma)).foldl max
        (backup_action_value M state a0 v gamma)) (a0 :: as)
    simp only [List.map_cons] at hzip
    unfold backup_single_state_optimal_actions
    rw [hacts]
    simp only [List.map_cons]
    rw [hzip]
  · intro a ha
    rw [hacts] at ha
    rcases List.mem_cons.mp ha with rfl | ha'
    · exact hspec.2 _ (List.mem_cons_self _ _)
    · exact hspec.2 _ (List.mem_cons_of_mem _ (List.mem_map_of_mem _ ha'))
  · rcases List.mem_cons.mp hspec.1 with hmem | hmem
    · exact ⟨a0, by simp [hacts], hmem.symm⟩
    · obtain ⟨a, ha, hfa⟩ := List.mem_map.mp hmem
      exact ⟨a, by simp [hacts, ha], hfa⟩

/-- C2 counterexample: on `TolMDP` the returned optimal-action list is
`[0, 1]` with maximum value `100`, yet action `1`'s value `199999/2000`
differs from the maximum by `1/2000`, far outside a relative tolerance of
`~1e-8` of the maximum (it even exceeds a `1e-7` relative band, ten times
the claimed one).  The code's actual test is `np.isclose` with
`atol = 1e-8` and `rtol = 1e-5`, which accepts it. -/
theorem C2_counterexample :
    backup_single_state_optimal_actions TolMDP 0 (fun _ => 0) 0
        = some ([0, 1], 100) ∧
    backup_action_value TolMDP 0 1 (fun _ => 0) 0 = 199999/2000 ∧
    ¬ |(199999/2000 : ℚ) - 100| ≤ (1/10000000) * |(100 : ℚ)| := by
  have hv0 : backup_action_value TolMDP 0 0 (fun _ => (0:ℚ)) 0 = 100 := by
    simp [backup_action_value, TolMDP]
  have hv1 : backup_action_value TolMDP 0 1 (fun _ => (0:ℚ)) 0
      = 199999/2000 := by
    simp [backup_action_value, TolMDP]
  have habs100 : |(100 : ℚ)| = 100 := abs_of_pos (by norm_num)
  have habsd : |(199999/2000 : ℚ) - 100| = 1/2000 := by
    rw [show (199999/2000 : ℚ) - 100 = -(1/2000) by norm_num, abs_neg,
      abs_of_pos (by norm_num)]
  refine ⟨?_, hv1, ?_⟩
  · have hmax : max (100 : ℚ) (199999/2000) = 100 :=
      max_eq_left (by norm_num)
    have hclose1 : np_isclose 100 100 = true := np_isclose_self 100
    have hclose2 : np_isclose (199999/2000) 100 = true := by
      rw [np_isclose_iff, habsd, habs100]
      norm_num
    simp [backup_single_state_optimal_actions,
      show TolMDP.actions 0 = [0, 1] from rfl, hv0, hv1, hmax,
      hclose1, hclose2]
  · rw [habsd, habs100]
    norm_num

/-- C2 (amended): for every state with at least one legal action,
`backup_single_state_optimal_actions` returns the maximum `m` over legal
actions of the backed-up action value together with exactly those legal
actions (in enumeration order) whose action value satisfies `np.isclose`
with its default tolerances, i.e. `|value - m| <= 1e-8 + 1e-5 * |m|`
(absolute tolerance `1e-8` plus relative tolerance `1e-5`, not a relative
tolerance of `~1e-8`). -/
theorem C2_optimal_actions (M : FiniteMDP S A) (state : S) (v : S → ℚ)
    (gamma : ℚ) (h : M.actions state ≠ []) :
    ∃ m : ℚ,
      backup_single_state_optimal_actions M state v gamma
          = some ((M.actions state).filter
              (fun a => np_isclose (backup_action_value M state a v gamma) m), m)
        ∧ (∀ a ∈ M.actions state, backup_action_value M state a v gamma ≤ m)
        ∧ (∃ a ∈ M.actions state, backup_action_value M state a v gamma = m) :=
  bsoa_spec M state v gamma h

/-- Witness for C2 (amended) on the 3-state fixture MDP. -/
theorem C2_optimal_actions_witness :
    SimpleMDP.actions "A" ≠ [] ∧
    (∃ m : ℚ,
      backup_single_state_optimal_actions SimpleMDP "A" v_fixture (9/10)
          = some ((SimpleMDP.actions "A").filter
              (fun a => np_isclose
                (backup_action_value SimpleMDP "A" a v_fixture (9/10)) m), m)
        ∧ (∀ a ∈ SimpleMDP.actions "A",
            backup_action_value SimpleMDP "A" a v_fixture (9/10) ≤ m)
        ∧ (∃ a ∈ SimpleMDP.actions "A",
            backup_action_value SimpleMDP "A" a v_fixture (9/10) = m)) :=
  ⟨by simp [SimpleMDP],
    C2_optimal_actions SimpleMDP "A" v_fixture (9/10) (by simp [SimpleMDP])⟩

theorem addAt_zero (f : ℕ → ℚ) (i : ℕ) : addAt f i 0 = f := by
  funext j
  unfold addAt
  split <;> simp

theorem addAt_addAt (f : ℕ → ℚ) (i : ℕ) (q q' : ℚ) :
    addAt (addAt f i q) i q' = addAt f i (q + q') := by
  funext j
  unfold addAt
  split <;> simp_all [add_assoc]

/-- A fold of pointwise `+=`s at a fixed index accumulates the sum. -/
theorem foldl_addAt {X : Type} (g : X → ℚ) (i : ℕ) :
    ∀ (l : List X) (f : ℕ → ℚ),
      l.foldl (fun acc x => addAt acc i (g x)) f = addAt f i ((l.map g).sum)
  | [], f => by simp [addAt_zero]
  | x :: xs, f => by
      simp only [List.foldl_cons, List.map_cons, List.sum_cons]
      rw [foldl_addAt g i xs, addAt_addAt]

/-- A fold whose step acts componentwise on a pair splits into two folds. -/
theorem foldl_prod_split {X P Q : Type} (fA : P → X → P) (fB : Q → X → Q) :
    ∀ (l : List X) (p : P × Q),
      l.foldl (fun acc x => (fA acc.1 x, fB acc.2 x)) p
        = (l.foldl fA p.1, l.foldl fB p.2)
  | [], p => rfl
  | x :: xs, p => by
      simp only [List.foldl_cons]
      exact foldl_prod_split fA fB xs (fA p.1 x, fB p.2 x)

/-- C7: whenever each (state, action) probability table used by the policy
is well formed (paired lists of equal length, probabilities summing to 1),
the free function `backup_policy_values_operator` of `solve.py` and the
method `FiniteMDP.backup_policy_values_operator` of `base.py` return the
same matrix `A = gamma * P_pi` and the same expected-reward vector `b`,
even though one accumulates `p_a * r` once per action and the other
accumulates `p_a * p_ns * r` over next states. -/
theorem C7_policy_values_operator_equiv (M : FiniteMDP S A) (gamma : ℚ)
    (pi : S → List (A × ℚ))
    (hyp : ∀ s ∈ M.states, ∀ ap ∈ pi s,
      (M.next_states_and_rewards s ap.1).1.1.length
          = (M.next_states_and_rewards s ap.1).1.2.length ∧
        (M.next_states_and_rewards s ap.1).1.2.sum = 1) :
    backup_policy_values_operator M gamma pi
      = M.backup_policy_values_operator gamma pi := by
  unfold backup_policy_values_operator FiniteMDP.backup_policy_values_operator
  apply List.foldl_ext
  intro acc s hs
  apply List.foldl_ext
  intro acc2 ap hap
  obtain ⟨hlen, hsum⟩ := hyp s hs ap hap
  have hb : (((M.next_states_and_rewards s ap.1).1.1.zip
      (M.next_states_and_rewards s ap.1).1.2).foldl
        (fun acc x =>
          addAt acc (M.s2i s)
            (ap.2 * x.2 * (M.next_states_and_rewards s ap.1).2))
        acc2.2)
      = addAt acc2.2 (M.s2i s)
          (ap.2 * (M.next_states_and_rewards s ap.1).2) := by
    rw [foldl_addAt]
    have hfun : (fun x : S × ℚ =>
        ap.2 * x.2 * (M.next_states_and_rewards s ap.1).2)
        = fun x : S × ℚ =>
            (ap.2 * (M.next_states_and_rewards s ap.1).2) * x.2 := by
      funext x
      ring
    rw [hfun, List.sum_map_mul_left,
      List.map_snd_zip _ _ (le_of_eq hlen.symm), hsum, mul_one]
  refine Eq.trans ?_ (foldl_prod_split
    (fun Amat (nsp : S × ℚ) =>
      addAt2 Amat (M.s2i s) (M.s2i nsp.1) (gamma * ap.2 * nsp.2))
    (fun b (nsp : S × ℚ) =>
      addAt b (M.s2i s) (ap.2 * nsp.2 * (M.next_states_and_rewards s ap.1).2))
    ((M.next_states_and_rewards s ap.1).1.1.zip
      (M.next_states_and_rewards s ap.1).1.2)
    acc2).symm
  exact congrArg₂ Prod.mk rfl hb.symm

/-- Witness for C7 on the 3-state fixture MDP under the regression test's
stochastic policy `{"A": [("L", 0.6), ("R", 0.4)], "B": [("L", 1)],
"C": [("L", 1)]}`. -/
theorem C7_policy_values_operator_equiv_witness :
    (∀ s ∈ SimpleMDP.states, ∀ ap ∈ pi_fixture s,
      (SimpleMDP.next_states_and_rewards s ap.1).1.1.length
          = (SimpleMDP.next_states_and_rewards s ap.1).1.2.length ∧
        (SimpleMDP.next_states_and_rewards s ap.1).1.2.sum = 1) ∧
    backup_policy_values_operator SimpleMDP (9/10) pi_fixture
      = SimpleMDP.backup_policy_values_operator (9/10) pi_fixture := by
  have h : ∀ s ∈ SimpleMDP.states, ∀ ap ∈ pi_fixture s,
      (SimpleMDP.next_states_and_rewards s ap.1).1.1.length
          = (SimpleMDP.next_states_and_rewards s ap.1).1.2.length ∧
        (SimpleMDP.next_states_and_rewards s ap.1).1.2.sum = 1 := by
    intro s hs ap hap
    simp only [SimpleMDP, List.mem_cons, List.not_mem_nil, or_false] at hs
    rcases hs with rfl | rfl | rfl <;>
      simp only [pi_fixture, SimpleMDP, simple_transitions, String.reduceEq,
        reduceIte, List.mem_cons, List.not_mem_nil, or_false] at hap ⊢ <;>
      rcases hap with rfl | rfl <;>
      simp [simple_transitions] <;> norm_num
  exact ⟨h, C7_policy_values_operator_equiv SimpleMDP (9/10) pi_fixture h⟩

theorem foldl_set_length :
    ∀ (wl : List (ℕ × ℚ)) (arr : List ℚ),
      (wl.foldl (fun a p => a.set p.1 p.2) arr).length = arr.length
  | [], _ => rfl
  | p :: t, arr => by
      simp only [List.foldl_cons]
      rw [foldl_set_length t, List.length_set]

/-- A fold of array writes leaves an index untouched by every write
unchanged. -/
theorem foldl_set_untouched :
    ∀ (wl : List (ℕ × ℚ)) (arr : List ℚ) (j : ℕ), (∀ p ∈ wl, p.1 ≠ j) →
      (wl.foldl (fun a p => a.set p.1 p.2) arr).get? j = arr.get? j
  | [], _, _, _ => rfl
  | p :: t, arr, j, h => by
      simp only [List.foldl_cons]
      rw [foldl_set_untouched t _ j (fun q hq => h q (List.mem_cons_of_mem _ hq))]
      exact List.get?_set_ne _ _ (h p (List.mem_cons_self _ _))

/-- A fold of array writes that writes `x` at an in-bounds index `j`, where
every write to `j` writes the same value `x`, ends with `x` at `j`. -/
theorem foldl_set_get :
    ∀ (wl : List (ℕ × ℚ)) (arr : List ℚ) (j : ℕ) (x : ℚ),
      (j, x) ∈ wl → (∀ p ∈ wl, p.1 = j → p.2 = x) → j < arr.length →
      (wl.foldl (fun a p => a.set p.1 p.2) arr).get? j = some x
  | [], _, _, _, hmem, _, _ => absurd hmem (List.not_mem_nil _)
  | p :: t, arr, j, x, hmem, hall, hlen => by
      simp only [List.foldl_cons]
      by_cases ht : ∃ q ∈ t, q.1 = j
      · obtain ⟨q, hq, hq1⟩ := ht
        have hq2 : q.2 = x := hall q (List.mem_cons_of_mem _ hq) hq1
        have hqx : (j, x) ∈ t := by
          have : q = (j, x) := by
            rw [← hq1, ← hq2]
          rw [← this]
          exact hq
        exact foldl_set_get t _ j x hqx
          (fun r hr => hall r (List.mem_cons_of_mem _ hr))
          (by rw [List.length_set]; exact hlen)
      · push_neg at ht
        rw [foldl_set_untouched t _ j ht]
        rcases List.mem_cons.mp hmem with heq | hmem'
        · have hp1 : p.1 = j := by rw [← heq]
          rw [hp1]
          have hp2 : p.2 = x := hall p (List.mem_cons_self _ _) hp1
          rw [hp2]
          exact List.get?_set_eq_of_lt x hlen
        · exact absurd rfl (ht (j, x) hmem')

/-- On a state with at least one legal action the running maximum of
`backup_optimal_values` is a finite rational: the maximum of the per-action
sums. -/
theorem gav_eq_coe_max (M : FiniteMDP S A) (s : S) (v : List ℚ) (gamma : ℚ)
    (h : M.actions s ≠ []) :
    ∃ m : ℚ, greatest_action_value M s v gamma = (m : WithBot ℚ)
      ∧ (∀ a ∈ M.actions s, optimal_value_action_sum M s a v gamma ≤ m)
      ∧ (∃ a ∈ M.actions s, optimal_value_action_sum M s a v gamma = m) := by
  obtain ⟨a0, as, hacts⟩ : ∃ a0 as, M.actions s = a0 :: as :=
    List.exists_cons_of_ne_nil h
  have hfold : ∀ (l : List A) (q : ℚ),
      l.foldl (fun g a =>
        max g ↑(optimal_value_action_sum M s a v gamma)) (q : WithBot ℚ)
        = ((l.map (fun a => optimal_value_action_sum M s a v gamma)).foldl
            max q : ℚ) := by
    intro l
    induction l with
    | nil => intro q; rfl
    | cons b bs ih =>
        intro q
        simp only [List.foldl_cons, List.map_cons]
        rw [← WithBot.coe_max, ih]
  have hspec := foldl_max_spec
    (as.map (fun a => optimal_value_action_sum M s a v gamma))
    (optimal_value_action_sum M s a0 v gamma)
  refine ⟨(as.map (fun a => optimal_value_action_sum M s a v gamma)).foldl max
    (optimal_value_action_sum M s a0 v gamma), ?_, ?_, ?_⟩
  · unfold greatest_action_value
    rw [hacts]
    simp only [List.foldl_cons]
    rw [show (max (⊥ : WithBot ℚ)
        ↑(optimal_value_action_sum M s a0 v gamma))
        = ((optimal_value_action_sum M s a0 v gamma : ℚ) : WithBot ℚ) from by
          simp]
    exact hfold as _
  · intro a ha
    rw [hacts] at ha
    rcases List.mem_cons.mp ha with rfl | ha'
    · exact hspec.2 _ (List.mem_cons_self _ _)
    · exact hspec.2 _ (List.mem_cons_of_mem _ (List.mem_map_of_mem _ ha'))
  · rcases List.mem_cons.mp hspec.1 with hmem | hmem
    · exact ⟨a0, by simp [hacts], hmem.symm⟩
    · obtain ⟨a, ha, hfa⟩ := List.mem_map.mp hmem
      exact ⟨a, by simp [hacts, ha], hfa⟩

/-- Representation of a sweep as a fold of array writes. -/
theorem bov_sweep_repr (M : FiniteMDP S A) (v : List ℚ) (gamma : ℚ)
    (order : List S) :
    backup_optimal_values_sweep M order v gamma
      = (order.map (fun t =>
          (M.s2i t, (greatest_action_value M t v gamma).unbot' 0))).foldl
            (fun a p => a.set p.1 p.2) (List.replicate M.states.length 0) := by
  rw [List.foldl_map]
  rfl

/-- After a sweep in any order that is a permutation of `mdp.states`, the
slot of state `s` holds `s`'s greatest action value. -/
theorem bov_sweep_get (M : FiniteMDP S A) (v : List ℚ) (gamma : ℚ)
    (order : List S) (hperm : order.Perm M.states) (s : S)
    (hs : s ∈ M.states) :
    (backup_optimal_values_sweep M order v gamma).get? (M.s2i s)
      = some ((greatest_action_value M s v gamma).unbot' 0) := by
  rw [bov_sweep_repr]
  apply foldl_set_get
  · exact List.mem_map_of_mem _ (hperm.mem_iff.mpr hs)
  · intro p hp hp1
    obtain ⟨t, ht, rfl⟩ := List.mem_map.mp hp
    have ht' : t ∈ M.states := hperm.subset ht
    have hts : t = s := (List.indexOf_inj ht' hs).mp hp1
    rw [hts]
  · rw [List.length_replicate]
    exact List.indexOf_lt_length.mpr hs

/-- C3: `backup_optimal_values` returns a fresh array of length
`len(states)` in which, for every state `s` with at least one legal action,
the entry at `s2i(s)` is the maximum over legal actions of the action value
backed up from the unmodified input `v`; and the result of the sweep is the
same for every visiting order that is a permutation of `mdp.states`
(Jacobi-style: every entry reads only the input array). -/
theorem C3_backup_optimal_values (M : FiniteMDP S A) (v : List ℚ)
    (gamma : ℚ) :
    (backup_optimal_values M v gamma).length = M.states.length ∧
    (∀ s ∈ M.states, M.actions s ≠ [] →
      ∃ m : ℚ,
        (backup_optimal_values M v gamma).get? (M.s2i s) = some m
          ∧ (∀ a ∈ M.actions s, optimal_value_action_sum M s a v gamma ≤ m)
          ∧ (∃ a ∈ M.actions s, optimal_value_action_sum M s a v gamma = m)) ∧
    (∀ order : List S, order.Perm M.states →
      backup_optimal_values_sweep M order v gamma
        = backup_optimal_values M v gamma) := by
  refine ⟨?_, ?_, ?_⟩
  · rw [backup_optimal_values, bov_sweep_repr, foldl_set_length,
      List.length_replicate]
  · intro s hs h
    obtain ⟨m, hm, hub, hmem⟩ := gav_eq_coe_max M s v gamma h
    refine ⟨m, ?_, hub, hmem⟩
    rw [backup_optimal_values, bov_sweep_get M v gamma M.states
      (List.Perm.refl _) s hs, hm, WithBot.unbot'_coe]
  · intro order hperm
    rw [backup_optimal_values]
    apply List.ext_get?_iff.mpr
    intro j
    by_cases hj : ∃ s ∈ M.states, M.s2i s = j
    · obtain ⟨s, hs, hjs⟩ := hj
      rw [← hjs, bov_sweep_get M v gamma order hperm s hs,
        bov_sweep_get M v gamma M.states (List.Perm.refl _) s hs]
    · push_neg at hj
      rw [bov_sweep_repr, bov_sweep_repr, foldl_set_untouched,
        foldl_set_untouched]
      · intro p hp
        obtain ⟨t, ht, rfl⟩ := List.mem_map.mp hp
        exact hj t ht
      · intro p hp
        obtain ⟨t, ht, rfl⟩ := List.mem_map.mp hp
        exact hj t (hperm.subset ht)

/-- Witness for C3 on the 3-state fixture MDP, with the regression values
`[3, 1, 0]`, `gamma = 0.9`, state `A` and the reversed sweep order. -/
theorem C3_backup_optimal_values_witness :
    "A" ∈ SimpleMDP.states ∧ SimpleMDP.actions "A" ≠ [] ∧
    (∃ m : ℚ,
      (backup_optimal_values SimpleMDP [3, 1, 0] (9/10)).get?
          (SimpleMDP.s2i "A") = some m
        ∧ (∀ a ∈ SimpleMDP.actions "A",
            optimal_value_action_sum SimpleMDP "A" a [3, 1, 0] (9/10) ≤ m)
        ∧ (∃ a ∈ SimpleMDP.actions "A",
            optimal_value_action_sum SimpleMDP "A" a [3, 1, 0] (9/10) = m)) ∧
    (["C", "B", "A"].Perm SimpleMDP.states) ∧
    backup_optimal_values_sweep SimpleMDP ["C", "B", "A"] [3, 1, 0] (9/10)
      = backup_optimal_values SimpleMDP [3, 1, 0] (9/10) := by
  have h := C3_backup_optimal_values SimpleMDP [3, 1, 0] (9/10)
  have hmem : "A" ∈ SimpleMDP.states := by simp [SimpleMDP]
  have hne : SimpleMDP.actions "A" ≠ [] := by simp [SimpleMDP]
  have hperm : (["C", "B", "A"] : List String).Perm SimpleMDP.states := by
    show (["C", "B", "A"] : List String).Perm ["A", "B", "C"]
    decide
  exact ⟨hmem, hne, h.2.1 "A" hmem hne, hperm, h.2.2 _ hperm⟩

/-- C8 counterexample: on `LoopMDP` at `gamma = 1/2` with tolerance
`1/100`, the value array `v = [99/50]` is a fixed point of
`backup_optimal_values` within the tolerance (one application gives
`[199/100]`, off by exactly `1/100`), yet applying the operator twice gives
`[399/200]`, which differs from `v` by `3/200 > 1/100`: the claim's "within
the same tolerance" fails. -/
theorem C8_counterexample :
    backup_optimal_values LoopMDP [99/50] (1/2) = [199/100] ∧
    |(199/100 : ℚ) - 99/50| ≤ 1/100 ∧
    backup_optimal_values LoopMDP [199/100] (1/2) = [399/200] ∧
    ¬ |(399/200 : ℚ) - 99/50| ≤ 1/100 := by
  have hb : ∀ w : ℚ, backup_optimal_values LoopMDP [w] (1/2)
      = [1 + 1/2 * w] := by
    intro w
    simp [backup_optimal_values, backup_optimal_values_sweep,
      greatest_action_value, optimal_value_action_sum, LoopMDP,
      FiniteMDP.s2i]
    norm_cast
  refine ⟨?_, ?_, ?_, ?_⟩
  · rw [hb]
    norm_num
  · rw [show |(199/100 : ℚ) - 99/50| = 1/100 from by
      rw [show (199/100 : ℚ) - 99/50 = 1/100 by norm_num,
        abs_of_pos (by norm_num)]]
  · rw [hb]
    norm_num
  · rw [show |(399/200 : ℚ) - 99/50| = 3/200 from by
      rw [show (399/200 : ℚ) - 99/50 = 3/200 by norm_num,
        abs_of_pos (by norm_num)]]
    norm_num

/-- C8 (amended): if `v` is an exact fixed point of `backup_optimal_values`
(`backup_optimal_values(mdp, v, gamma) = v`), then applying the operator
twice returns `v` unchanged exactly.  For a fixed point only within a
tolerance the claim fails (see the counterexample): a second application
may move the result up to `(1 + gamma)` times the tolerance away from
`v`. -/
theorem C8_backup_optimal_values_idempotent (M : FiniteMDP S A)
    (v : List ℚ) (gamma : ℚ)
    (h : backup_optimal_values M v gamma = v) :
    backup_optimal_values M (backup_optimal_values M v gamma) gamma = v := by
  rw [h, h]

/-- Witness for C8 (amended): `[2]` is an exact fixed point of the Bellman
optimality backup on `LoopMDP` at `gamma = 1/2`. -/
theorem C8_backup_optimal_values_idempotent_witness :
    backup_optimal_values LoopMDP [2] (1/2) = [2] ∧
    backup_optimal_values LoopMDP
      (backup_optimal_values LoopMDP [2] (1/2)) (1/2) = [2] := by
  have h : backup_optimal_values LoopMDP [2] (1/2) = [2] := by
    have hb : backup_optimal_values LoopMDP [2] (1/2) = [1 + 1/2 * 2] := by
      simp [backup_optimal_values, backup_optimal_values_sweep,
        greatest_action_value, optimal_value_action_sum, LoopMDP,
        FiniteMDP.s2i]
      norm_cast
    rw [hb]
    norm_num
  exact ⟨h, C8_backup_optimal_values_idempotent LoopMDP [2] (1/2) h⟩

/-- Characterisation of the `iterative_policy_evaluation` loop: with `r`
further sweeps permitted after the current one, it completes `c + 1` sweeps
for some `c ≤ r`, returning the value function after those sweeps and the
loop variable `niter + c`; it breaks at the first sweep passing the
tolerance test, and the warning flag is set iff `tol` is set and the final
sweep's change did not pass the test. -/
theorem ipe_loop_spec (M : FiniteMDP S A) (gamma : ℚ)
    (pi : S → List (A × ℚ)) (tol : Option ℚ) :
    ∀ (r : ℕ) (v : S → ℚ) (niter : ℕ),
      ∃ c ≤ r,
        ipe_loop M gamma pi tol r v niter
            = ((ipe_iterate M gamma pi)^[c + 1] v, niter + c,
                tol.isSome && !(tol_break tol (ipe_delta M gamma pi v c)))
          ∧ (∀ k < c, tol_break tol (ipe_delta M gamma pi v k) = false)
          ∧ (c < r → tol_break tol (ipe_delta M gamma pi v c) = true) := by
  intro r
  induction r with
  | zero =>
      intro v niter
      refine ⟨0, Nat.le_refl 0, ?_, fun k hk => absurd hk (Nat.not_lt_zero k),
        fun h => absurd h (lt_irrefl 0)⟩
      simp only [ipe_loop, ipe_delta, Function.iterate_zero_apply,
        Function.iterate_one]
      cases hb : tol_break tol (ipe_sweep M gamma pi v).2 <;>
        simp [hb, ipe_iterate]
  | succ r ih =>
      intro v niter
      cases hb : tol_break tol (ipe_sweep M gamma pi v).2
      · obtain ⟨c', hc', heq, hprev, hlast⟩ :=
          ih ((ipe_sweep M gamma pi v).1) (niter + 1)
        refine ⟨c' + 1, Nat.succ_le_succ hc', ?_, ?_, ?_⟩
        · simp only [ipe_loop]
          rw [if_neg (by simp [hb]), heq]
          refine congrArg₂ Prod.mk ?_ (congrArg₂ Prod.mk (by omega) ?_)
          · rw [show c' + 1 + 1 = (c' + 1) + 1 from rfl,
              Function.iterate_succ_apply]
            rfl
          · unfold ipe_delta
            rw [Function.iterate_succ_apply]
            rfl
        · intro k hk
          cases k with
          | zero =>
              simp only [ipe_delta, Function.iterate_zero_apply]
              exact hb
          | succ j =>
              have hj := hprev j (by omega)
              simp only [ipe_delta] at hj ⊢
              rw [Function.iterate_succ_apply]
              exact hj
        · intro h
          have hl := hlast (by omega)
          simp only [ipe_delta] at hl ⊢
          rw [Function.iterate_succ_apply]
          exact hl
      · refine ⟨0, Nat.zero_le _, ?_,
          fun k hk => absurd hk (Nat.not_lt_zero k), fun _ => ?_⟩
        · simp only [ipe_loop]
          rw [if_pos (by simp [hb])]
          simp [ipe_iterate, ipe_delta, hb]
        · simp only [ipe_delta, Function.iterate_zero_apply]
          exact hb

/-- C4: with `tol = None`, `iterative_policy_evaluation` performs exactly
`maxiter` full sweeps, returns `maxiter`, and never warns; with a set
tolerance it stops at the first sweep whose maximum absolute state-value
change is below `tol`, returns the number of completed sweeps together
with the value function after exactly that many sweeps, and the non-fatal
warning is emitted (alongside the normal return) exactly when `maxiter`
sweeps complete without the criterion holding. -/
theorem C4_iterative_policy_evaluation (M : FiniteMDP S A) (gamma : ℚ)
    (pi : S → List (A × ℚ)) (v : S → ℚ) (maxiter : ℕ)
    (hmax : 1 ≤ maxiter) :
    (iterative_policy_evaluation v M gamma pi none maxiter
        = some ((ipe_iterate M gamma pi)^[maxiter] v, maxiter, false)) ∧
    (∀ t : ℚ, ∃ v_out niter warned,
      iterative_policy_evaluation v M gamma pi (some t) maxiter
          = some (v_out, niter, warned)
        ∧ 1 ≤ niter ∧ niter ≤ maxiter
        ∧ v_out = (ipe_iterate M gamma pi)^[niter] v
        ∧ (∀ k, k + 1 < niter → ¬ ipe_delta M gamma pi v k < t)
        ∧ (warned = false ↔ ipe_delta M gamma pi v (niter - 1) < t)
        ∧ (warned = true → niter = maxiter)) := by
  obtain ⟨m, rfl⟩ : ∃ m, maxiter = m + 1 :=
    ⟨maxiter - 1, by omega⟩
  constructor
  · obtain ⟨c, hc, heq, hprev, hlast⟩ := ipe_loop_spec M gamma pi none m v 1
    have hcm : c = m := by
      by_contra hne
      have := hlast (by omega)
      simp [tol_break] at this
    subst hcm
    simp only [iterative_policy_evaluation, heq]
    refine congrArg some (congrArg₂ Prod.mk ?_ (congrArg₂ Prod.mk (by omega) ?_))
    · rfl
    · simp
  · intro t
    obtain ⟨c, hc, heq, hprev, hlast⟩ :=
      ipe_loop_spec M gamma pi (some t) m v 1
    refine ⟨(ipe_iterate M gamma pi)^[c + 1] v, 1 + c,
      !(tol_break (some t) (ipe_delta M gamma pi v c)), ?_, by omega,
      by omega, ?_, ?_, ?_, ?_⟩
    · simp only [iterative_policy_evaluation, heq]
      simp
    · rw [show 1 + c = c + 1 from by omega]
    · intro k hk
      have hpk := hprev k (by omega)
      simp only [tol_break, decide_eq_false_iff_not] at hpk
      exact hpk
    · rw [show 1 + c - 1 = c from by omega]
      simp [tol_break]
    · intro hw
      simp only [tol_break, Bool.not_eq_true', decide_eq_false_iff_not] at hw
      have hcm : c = m := by
        by_contra hne
        have hl := hlast (by omega)
        simp only [tol_break, decide_eq_true_eq] at hl
        exact hw hl
      omega

/-- Witness for C4 on the 3-state fixture MDP with the fixture policy,
`gamma = 0.9` and `maxiter = 2`. -/
theorem C4_iterative_policy_evaluation_witness :
    (1 ≤ 2) ∧
    ((iterative_policy_evaluation v_fixture SimpleMDP (9/10) pi_fixture
        none 2
        = some ((ipe_iterate SimpleMDP (9/10) pi_fixture)^[2] v_fixture, 2,
            false)) ∧
    (∀ t : ℚ, ∃ v_out niter warned,
      iterative_policy_evaluation v_fixture SimpleMDP (9/10) pi_fixture
          (some t) 2
          = some (v_out, niter, warned)
        ∧ 1 ≤ niter ∧ niter ≤ 2
        ∧ v_out = (ipe_iterate SimpleMDP (9/10) pi_fixture)^[niter] v_fixture
        ∧ (∀ k, k + 1 < niter →
            ¬ ipe_delta SimpleMDP (9/10) pi_fixture v_fixture k < t)
        ∧ (warned = false ↔
            ipe_delta SimpleMDP (9/10) pi_fixture v_fixture (niter - 1) < t)
        ∧ (warned = true → niter = 2))) :=
  ⟨by norm_num,
    C4_iterative_policy_evaluation SimpleMDP (9/10) pi_fixture v_fixture 2
      (by norm_num)⟩

/-- The optimal-action list returned by
`backup_single_state_optimal_actions` on a state with a legal action is
never empty (the source `assert`s this). -/
theorem bsoa_ne_nil (M : FiniteMDP S A) (s : S) (v : S → ℚ) (gamma : ℚ)
    (h : M.actions s ≠ []) :
    ∃ a as q, backup_single_state_optimal_actions M s v gamma
      = some (a :: as, q) := by
  obtain ⟨m, heq, hub, hex⟩ := bsoa_spec M s v gamma h
  obtain ⟨a, ha, hfa⟩ := hex
  have hmem : a ∈ (M.actions s).filter
      (fun b => np_isclose (backup_action_value M s b v gamma) m) :=
    List.mem_filter.mpr ⟨ha, by rw [hfa]; exact np_isclose_self m⟩
  obtain ⟨a0, as0, hcons⟩ :=
    List.exists_cons_of_ne_nil (List.ne_nil_of_mem hmem)
  exact ⟨a0, as0, m, by rw [heq, hcons]⟩

theorem vi_step_some (M : FiniteMDP S A) (gamma : ℚ) (s : S)
    (h : M.actions s ≠ []) (w : S → ℚ) (d : ℚ) :
    ∃ q, vi_step M gamma (some (w, d)) s
      = some (updateFun w s q, max d |w s - q|) := by
  obtain ⟨a, as, q, heq⟩ := bsoa_ne_nil M s w gamma h
  exact ⟨q, by simp only [vi_step, heq]⟩

theorem vi_fold_some (M : FiniteMDP S A) (gamma : ℚ) :
    ∀ l : List S, (∀ s ∈ l, M.actions s ≠ []) → ∀ (w : S → ℚ) (d : ℚ),
      ∃ r, l.foldl (vi_step M gamma) (some (w, d)) = some r
  | [], _, w, d => ⟨(w, d), rfl⟩
  | s :: t, h, w, d => by
      simp only [List.foldl_cons]
      obtain ⟨q, hq⟩ := vi_step_some M gamma s (h s (List.mem_cons_self _ _)) w d
      rw [hq]
      exact vi_fold_some M gamma t
        (fun x hx => h x (List.mem_cons_of_mem _ hx)) _ _

/-- The `value_iteration` loop returns a sweep count between `niter` and
`niter + r` whenever every state has a legal action. -/
theorem vi_loop_spec (M : FiniteMDP S A) (gamma tol : ℚ)
    (hA : ∀ s ∈ M.states, M.actions s ≠ []) :
    ∀ (r : ℕ) (v : S → ℚ) (niter : ℕ),
      ∃ v' n' w', vi_loop M gamma tol r v niter = some (v', n', w')
        ∧ niter ≤ n' ∧ n' ≤ niter + r := by
  intro r
  induction r with
  | zero =>
      intro v niter
      obtain ⟨⟨v', d⟩, hs⟩ := vi_fold_some M gamma M.states hA v 0
      simp only [vi_loop, vi_sweep, hs]
      by_cases hd : d < tol
      · exact ⟨v', niter, false, by rw [if_pos hd], le_refl _, by omega⟩
      · exact ⟨v', niter, true, by rw [if_neg hd], le_refl _, by omega⟩
  | succ r ih =>
      intro v niter
      obtain ⟨⟨v', d⟩, hs⟩ := vi_fold_some M gamma M.states hA v 0
      simp only [vi_loop, vi_sweep, hs]
      by_cases hd : d < tol
      · exact ⟨v', niter, false, by rw [if_pos hd], le_refl _, by omega⟩
      · obtain ⟨v'', n'', w'', heq, h1, h2⟩ := ih v' (niter + 1)
        exact ⟨v'', n'', w'', by rw [if_neg hd]; exact heq, by omega, by omega⟩

/-- Full characterisation of a prefix of the policy-improvement sweep over
a duplicate-free list of states, each with a legal action: the fold
succeeds; states outside the list keep their action; a listed state keeps
its action iff it is in its optimal-action list and otherwise gets that
list's first element; and the resulting flag is true iff it started true
and no listed state changed. -/
theorem pimp_fold_spec (M : FiniteMDP S A) (gamma : ℚ) (v : S → ℚ) :
    ∀ l : List S, l.Nodup → (∀ s ∈ l, M.actions s ≠ []) →
    ∀ (p : S → A) (st : Bool),
      ∃ p' st',
        l.foldl (pimp_step M gamma v) (some (p, st)) = some (p', st')
          ∧ (∀ x, x ∉ l → p' x = p x)
          ∧ (∀ s ∈ l, ∀ as q,
              backup_single_state_optimal_actions M s v gamma
                  = some (as, q) →
                (p s ∈ as → p' s = p s) ∧
                (p s ∉ as → p' s = as.headD (p s)))
          ∧ (st' = true ↔ st = true ∧ ∀ s ∈ l, ∀ as q,
              backup_single_state_optimal_actions M s v gamma
                  = some (as, q) → p s ∈ as)
  | [], _, _, p, st =>
      ⟨p, st, rfl, fun _ _ => rfl, by simp, by simp⟩
  | s :: t, hnd, h, p, st => by
      obtain ⟨a0, as0, q0, heq⟩ :=
        bsoa_ne_nil M s v gamma (h s (List.mem_cons_self _ _))
      have hndt : t.Nodup := (List.nodup_cons.mp hnd).2
      have hst : s ∉ t := (List.nodup_cons.mp hnd).1
      have ht : ∀ x ∈ t, M.actions x ≠ [] :=
        fun x hx => h x (List.mem_cons_of_mem _ hx)
      simp only [List.foldl_cons]
      by_cases hmem : p s ∈ a0 :: as0
      · have hstep : pimp_step M gamma v (some (p, st)) s = some (p, st) := by
          simp only [pimp_step, heq]
          rw [if_pos hmem]
        rw [hstep]
        obtain ⟨p', st', hfold, hout, hin, hstable⟩ :=
          pimp_fold_spec M gamma v t hndt ht p st
        refine ⟨p', st', hfold, ?_, ?_, ?_⟩
        · intro x hx
          exact hout x (fun hxt => hx (List.mem_cons_of_mem _ hxt))
        · intro s' hs' as q hbs
          rcases List.mem_cons.mp hs' with rfl | hs't
          · rw [heq] at hbs
            have has : a0 :: as0 = as :=
              congrArg Prod.fst (Option.some.inj hbs)
            rw [← has]
            exact ⟨fun _ => hout s' hst, fun hcon => absurd hmem hcon⟩
          · exact hin s' hs't as q hbs
        · rw [hstable]
          constructor
          · rintro ⟨hst', hall⟩
            refine ⟨hst', ?_⟩
            intro s' hs' as q hbs
            rcases List.mem_cons.mp hs' with rfl | h'
            · rw [heq] at hbs
              have has : a0 :: as0 = as :=
                congrArg Prod.fst (Option.some.inj hbs)
              rw [← has]
              exact hmem
            · exact hall s' h' as q hbs
          · rintro ⟨hst', hall⟩
            exact ⟨hst', fun s' hs' as q hbs =>
              hall s' (List.mem_cons_of_mem _ hs') as q hbs⟩
      · have hstep : pimp_step M gamma v (some (p, st)) s
            = some (updateFun p s a0, false) := by
          simp only [pimp_step, heq]
          rw [if_neg hmem]
        rw [hstep]
        obtain ⟨p', st', hfold, hout, hin, hstable⟩ :=
          pimp_fold_spec M gamma v t hndt ht (updateFun p s a0) false
        refine ⟨p', st', hfold, ?_, ?_, ?_⟩
        · intro x hx
          have hxt : x ∉ t := fun h' => hx (List.mem_cons_of_mem _ h')
          have hxs : x ≠ s := fun h' => hx (h' ▸ List.mem_cons_self _ _)
          rw [hout x hxt]
          simp [updateFun, hxs]
        · intro s' hs' as q hbs
          rcases List.mem_cons.mp hs' with rfl | hs't
          · rw [heq] at hbs
            have has : a0 :: as0 = as :=
              congrArg Prod.fst (Option.some.inj hbs)
            rw [← has]
            refine ⟨fun h' => absurd h' hmem, fun _ => ?_⟩
            rw [hout s' hst]
            simp [updateFun]
          · have hne : s' ≠ s := fun h' => hst (h' ▸ hs't)
            have hps' : updateFun p s a0 s' = p s' := by
              simp [updateFun, hne]
            have hres := hin s' hs't as q hbs
            rw [hps'] at hres
            exact hres
        · rw [hstable]
          constructor
          · rintro ⟨hf, _⟩
            exact absurd hf (by simp)
          · rintro ⟨hst', hall⟩
            exact absurd (hall s (List.mem_cons_self _ _) (a0 :: as0) q0 heq)
              hmem

/-- A policy meeting the stability test (every state's action already in
its optimal-action list) passes the improvement sweep unchanged, with
`policy_stable = True`. -/
theorem pimp_sweep_stable (M : FiniteMDP S A) (gamma : ℚ) (v : S → ℚ)
    (hA : ∀ s ∈ M.states, M.actions s ≠ []) (hnd : M.states.Nodup)
    (p : S → A)
    (hall : ∀ s ∈ M.states, ∀ as q,
      backup_single_state_optimal_actions M s v gamma = some (as, q) →
        p s ∈ as) :
    pimp_sweep M gamma v p = some (p, true) := by
  obtain ⟨p', st', hfold, hout, hin, hstable⟩ :=
    pimp_fold_spec M gamma v M.states hnd hA p true
  have hst' : st' = true := hstable.mpr ⟨rfl, hall⟩
  have hpp : p' = p := by
    funext x
    by_cases hx : x ∈ M.states
    · obtain ⟨a0, as0, q0, heq⟩ := bsoa_ne_nil M x v gamma (hA x hx)
      exact (hin x hx _ _ heq).1 (hall x hx _ _ heq)
    · exact hout x hx
  rw [pimp_sweep, hfold, hst', hpp]

/-- Conversely, a sweep reporting `policy_stable = True` left the policy
unchanged, and every state's action is in its optimal-action list. -/
theorem pimp_sweep_stable_inv (M : FiniteMDP S A) (gamma : ℚ) (v : S → ℚ)
    (hA : ∀ s ∈ M.states, M.actions s ≠ []) (hnd : M.states.Nodup)
    (p p' : S → A)
    (hres : pimp_sweep M gamma v p = some (p', true)) :
    p' = p ∧ ∀ s ∈ M.states, ∀ as q,
      backup_single_state_optimal_actions M s v gamma = some (as, q) →
        p s ∈ as := by
  obtain ⟨p'', st', hfold, hout, hin, hstable⟩ :=
    pimp_fold_spec M gamma v M.states hnd hA p true
  rw [pimp_sweep, hfold] at hres
  have hp : p'' = p' := congrArg Prod.fst (Option.some.inj hres)
  have hst : st' = true := congrArg Prod.snd (Option.some.inj hres)
  obtain ⟨-, hall⟩ := hstable.mp hst
  have hpp : p' = p := by
    funext x
    rw [← hp]
    by_cases hx : x ∈ M.states
    · obtain ⟨a0, as0, q0, heq⟩ := bsoa_ne_nil M x v gamma (hA x hx)
      exact (hin x hx _ _ heq).1 (hall x hx _ _ heq)
    · exact hout x hx
  exact ⟨hpp, hall⟩

/-- The embedded policy-evaluation call of `policy_iteration`
(`maxiter` left at its default `100`) always returns. -/
theorem ipe_100_some (M : FiniteMDP S A) (gamma : ℚ)
    (pi : S → List (A × ℚ)) (tol : ℚ) (v : S → ℚ) :
    ∃ vv nn ww,
      iterative_policy_evaluation v M gamma pi (some tol) 100
        = some (vv, nn, ww) := by
  obtain ⟨c, hc, heq, -, -⟩ := ipe_loop_spec M gamma pi (some tol) 99 v 1
  refine ⟨(ipe_iterate M gamma pi)^[c + 1] v, 1 + c,
    (some tol : Option ℚ).isSome &&
      !(tol_break (some tol) (ipe_delta M gamma pi v c)), ?_⟩
  show some (ipe_loop M gamma pi (some tol) 99 v 1) = _
  rw [heq]

/-- Behaviour of the outer `policy_iteration` loop: it returns, the sweep
count lies between `niter` and `niter + r`, the warning is emitted only
when the last permitted sweep is reached, and an unwarned return means the
returned policy is stable for the returned value function. -/
theorem pil_spec (M : FiniteMDP S A) (gamma tol : ℚ)
    (hA : ∀ s ∈ M.states, M.actions s ≠ []) (hnd : M.states.Nodup) :
    ∀ (r : ℕ) (v : S → ℚ) (p : S → A) (niter : ℕ),
      ∃ v' p' n' w',
        policy_iteration_loop M gamma tol r v p niter
            = some (v', p', n', w')
          ∧ niter ≤ n' ∧ n' ≤ niter + r
          ∧ (w' = true → n' = niter + r)
          ∧ (w' = false → ∀ s ∈ M.states, ∀ as q,
              backup_single_state_optimal_actions M s v' gamma
                  = some (as, q) → p' s ∈ as) := by
  intro r
  induction r with
  | zero =>
      intro v p niter
      obtain ⟨ps, sts, hfold, hout, hin, hstable⟩ :=
        pimp_fold_spec M gamma v M.states hnd hA p true
      have hsw : pimp_sweep M gamma v p = some (ps, sts) := hfold
      cases sts
      · obtain ⟨vv, nn, ww, hipe⟩ :=
          ipe_100_some M gamma (fun s => [(ps s, 1)]) tol v
        refine ⟨vv, ps, niter, true, ?_, le_refl _, by omega, fun _ => by omega,
          fun hf => absurd hf (by simp)⟩
        simp only [policy_iteration_loop, hsw]
        rw [if_neg (by simp)]
        rw [hipe]
      · obtain ⟨hpp, hall⟩ := pimp_sweep_stable_inv M gamma v hA hnd p ps hsw
        refine ⟨v, ps, niter, false, ?_, le_refl _, by omega, by simp,
          fun _ => ?_⟩
        · simp only [policy_iteration_loop, hsw]
          simp
        · rw [hpp]
          exact hall
  | succ r ih =>
      intro v p niter
      obtain ⟨ps, sts, hfold, hout, hin, hstable⟩ :=
        pimp_fold_spec M gamma v M.states hnd hA p true
      have hsw : pimp_sweep M gamma v p = some (ps, sts) := hfold
      cases sts
      · obtain ⟨vv, nn, ww, hipe⟩ :=
          ipe_100_some M gamma (fun s => [(ps s, 1)]) tol v
        obtain ⟨v', p', n', w', heq, h1, h2, h3, h4⟩ := ih vv ps (niter + 1)
        refine ⟨v', p', n', w', ?_, by omega, by omega, fun hw => ?_, h4⟩
        · simp only [policy_iteration_loop, hsw]
          rw [if_neg (by simp)]
          rw [hipe]
          exact heq
        · have := h3 hw
          omega
      · obtain ⟨hpp, hall⟩ := pimp_sweep_stable_inv M gamma v hA hnd p ps hsw
        refine ⟨v, ps, niter, false, ?_, le_refl _, by omega, by simp,
          fun _ => ?_⟩
        · simp only [policy_iteration_loop, hsw]
          simp
        · rw [hpp]
          exact hall

/-- C5: in every policy-improvement sweep each state whose current action
is in the optimal-action set keeps it, and otherwise gets the set's first
action with the sweep marked unstable (states outside `states` untouched);
a policy that is already stable makes the outer loop return after the
first sweep, with `v` and `pi` untouched and no further policy evaluation;
a warning implies `maxiter` outer iterations elapsed; and an unwarned
return means the terminating sweep was stable: the returned policy is
optimal-stable for the returned value function. -/
theorem C5_policy_iteration (M : FiniteMDP S A) (gamma tol : ℚ)
    (v : S → ℚ) (pi : S → A) (maxiter : ℕ)
    (hA : ∀ s ∈ M.states, M.actions s ≠ []) (hnd : M.states.Nodup)
    (hmax : 1 ≤ maxiter) :
    (∃ pi' stable,
      pimp_sweep M gamma v pi = some (pi', stable)
        ∧ (∀ x, x ∉ M.states → pi' x = pi x)
        ∧ (∀ s ∈ M.states, ∀ as q,
            backup_single_state_optimal_actions M s v gamma = some (as, q) →
              (pi s ∈ as → pi' s = pi s) ∧
              (pi s ∉ as → pi' s = as.headD (pi s)))
        ∧ (stable = true ↔ ∀ s ∈ M.states, ∀ as q,
            backup_single_state_optimal_actions M s v gamma = some (as, q) →
              pi s ∈ as)) ∧
    ((∀ s ∈ M.states, ∀ as q,
        backup_single_state_optimal_actions M s v gamma = some (as, q) →
          pi s ∈ as) →
      policy_iteration v pi M gamma tol maxiter = some (v, pi, 1, false)) ∧
    (∀ v' pi' niter warned,
      policy_iteration v pi M gamma tol maxiter
          = some (v', pi', niter, warned) →
        (warned = true → niter = maxiter) ∧
        (warned = false → ∀ s ∈ M.states, ∀ as q,
            backup_single_state_optimal_actions M s v' gamma = some (as, q) →
              pi' s ∈ as)) := by
  obtain ⟨m, rfl⟩ : ∃ m, maxiter = m + 1 := ⟨maxiter - 1, by omega⟩
  refine ⟨?_, ?_, ?_⟩
  · obtain ⟨p', st', hfold, hout, hin, hstable⟩ :=
      pimp_fold_spec M gamma v M.states hnd hA pi true
    exact ⟨p', st', hfold, hout, hin, by rw [hstable]; simp⟩
  · intro hall
    have hsw : pimp_sweep M gamma v pi = some (pi, true) :=
      pimp_sweep_stable M gamma v hA hnd pi hall
    cases m with
    | zero =>
        simp only [policy_iteration, policy_iteration_loop, hsw]
        simp
    | succ k =>
        simp only [policy_iteration, policy_iteration_loop, hsw]
        simp
  · intro v' pi' niter warned hres
    obtain ⟨v0, p0, n0, w0, heq, h1, h2, h3, h4⟩ :=
      pil_spec M gamma tol hA hnd m v pi 1
    rw [show policy_iteration v pi M gamma tol (m + 1)
        = policy_iteration_loop M gamma tol m v pi 1 from rfl, heq] at hres
    simp only [Option.some.injEq, Prod.mk.injEq] at hres
    obtain ⟨rfl, rfl, rfl, rfl⟩ := hres
    constructor
    · intro hw
      have := h3 hw
      omega
    · exact h4

/-- Witness for C5 on the 3-state fixture MDP. -/
theorem C5_policy_iteration_witness :
    (∀ s ∈ SimpleMDP.states, SimpleMDP.actions s ≠ []) ∧
    SimpleMDP.states.Nodup ∧ (1 ≤ 3) ∧
    ((∃ pi' stable,
      pimp_sweep SimpleMDP (9/10) v_fixture piL_fixture
          = some (pi', stable)
        ∧ (∀ x, x ∉ SimpleMDP.states → pi' x = piL_fixture x)
        ∧ (∀ s ∈ SimpleMDP.states, ∀ as q,
            backup_single_state_optimal_actions SimpleMDP s v_fixture (9/10)
                = some (as, q) →
              (piL_fixture s ∈ as → pi' s = piL_fixture s) ∧
              (piL_fixture s ∉ as → pi' s = as.headD (piL_fixture s)))
        ∧ (stable = true ↔ ∀ s ∈ SimpleMDP.states, ∀ as q,
            backup_single_state_optimal_actions SimpleMDP s v_fixture (9/10)
                = some (as, q) → piL_fixture s ∈ as)) ∧
    ((∀ s ∈ SimpleMDP.states, ∀ as q,
        backup_single_state_optimal_actions SimpleMDP s v_fixture (9/10)
            = some (as, q) → piL_fixture s ∈ as) →
      policy_iteration v_fixture piL_fixture SimpleMDP (9/10) (1/100) 3
        = some (v_fixture, piL_fixture, 1, false)) ∧
    (∀ v' pi' niter warned,
      policy_iteration v_fixture piL_fixture SimpleMDP (9/10) (1/100) 3
          = some (v', pi', niter, warned) →
        (warned = true → niter = 3) ∧
        (warned = false → ∀ s ∈ SimpleMDP.states, ∀ as q,
            backup_single_state_optimal_actions SimpleMDP s v' (9/10)
                = some (as, q) → pi' s ∈ as))) := by
  have hA : ∀ s ∈ SimpleMDP.states, SimpleMDP.actions s ≠ [] := by
    intro s _
    simp [SimpleMDP]
  have hnd : SimpleMDP.states.Nodup := by simp [SimpleMDP]
  exact ⟨hA, hnd, by norm_num,
    C5_policy_iteration SimpleMDP (9/10) (1/100) v_fixture piL_fixture 3
      hA hnd (by norm_num)⟩

/-- C10: the sweep-based solvers are well defined exactly under the
precondition `maxiter >= 1`: with `maxiter = 0` the loop body never runs
and the trailing `return niter` reads an unbound loop variable (modelled
as `none`); with `maxiter >= 1` each solver returns a sweep count `niter`
with `1 <= niter <= maxiter` (for a well-formed MDP: duplicate-free states,
each with at least one legal action). -/
theorem C10_solvers_maxiter_precondition (M : FiniteMDP S A) (gamma : ℚ)
    (pi : S → List (A × ℚ)) (piD : S → A) (v : S → ℚ) (tol : Option ℚ)
    (t : ℚ) (maxiter : ℕ)
    (hA : ∀ s ∈ M.states, M.actions s ≠ []) (hnd : M.states.Nodup) :
    (iterative_policy_evaluation v M gamma pi tol 0 = none ∧
      value_iteration v M gamma t 0 = none ∧
      policy_iteration v piD M gamma t 0 = none) ∧
    (1 ≤ maxiter →
      (∃ v' n w, iterative_policy_evaluation v M gamma pi tol maxiter
          = some (v', n, w) ∧ 1 ≤ n ∧ n ≤ maxiter) ∧
      (∃ v' n w, value_iteration v M gamma t maxiter = some (v', n, w)
          ∧ 1 ≤ n ∧ n ≤ maxiter) ∧
      (∃ v' p' n w, policy_iteration v piD M gamma t maxiter
          = some (v', p', n, w) ∧ 1 ≤ n ∧ n ≤ maxiter)) := by
  refine ⟨⟨rfl, rfl, rfl⟩, ?_⟩
  intro hmax
  obtain ⟨m, rfl⟩ : ∃ m, maxiter = m + 1 := ⟨maxiter - 1, by omega⟩
  refine ⟨?_, ?_, ?_⟩
  · obtain ⟨c, hc, heq, -, -⟩ := ipe_loop_spec M gamma pi tol m v 1
    refine ⟨(ipe_iterate M gamma pi)^[c + 1] v, 1 + c,
      tol.isSome && !(tol_break tol (ipe_delta M gamma pi v c)), ?_,
      by omega, by omega⟩
    simp only [iterative_policy_evaluation, heq]
  · obtain ⟨v', n', w', heq, h1, h2⟩ := vi_loop_spec M gamma t hA m v 1
    exact ⟨v', n', w', by simp only [value_iteration]; exact heq,
      by omega, by omega⟩
  · obtain ⟨v', p', n', w', heq, h1, h2, -, -⟩ :=
      pil_spec M gamma t hA hnd m v piD 1
    exact ⟨v', p', n', w', by simp only [policy_iteration]; exact heq,
      by omega, by omega⟩

/-- Witness for C10 on the 3-state fixture MDP with `maxiter = 2`. -/
theorem C10_solvers_maxiter_precondition_witness :
    (∀ s ∈ SimpleMDP.states, SimpleMDP.actions s ≠ []) ∧
    SimpleMDP.states.Nodup ∧
    ((iterative_policy_evaluation v_fixture SimpleMDP (9/10) pi_fixture
        (some (1/100)) 0 = none ∧
      value_iteration v_fixture SimpleMDP (9/10) (1/100) 0 = none ∧
      policy_iteration v_fixture piL_fixture SimpleMDP (9/10) (1/100) 0
        = none) ∧
    (1 ≤ 2 →
      (∃ v' n w, iterative_policy_evaluation v_fixture SimpleMDP (9/10)
          pi_fixture (some (1/100)) 2 = some (v', n, w) ∧ 1 ≤ n ∧ n ≤ 2) ∧
      (∃ v' n w, value_iteration v_fixture SimpleMDP (9/10) (1/100) 2
          = some (v', n, w) ∧ 1 ≤ n ∧ n ≤ 2) ∧
      (∃ v' p' n w, policy_iteration v_fixture piL_fixture SimpleMDP (9/10)
          (1/100) 2 = some (v', p', n, w) ∧ 1 ≤ n ∧ n ≤ 2))) := by
  have hA : ∀ s ∈ SimpleMDP.states, SimpleMDP.actions s ≠ [] := by
    intro s _
    simp [SimpleMDP]
  have hnd : SimpleMDP.states.Nodup := by simp [SimpleMDP]
  exact ⟨hA, hnd,
    C10_solvers_maxiter_precondition SimpleMDP (9/10) pi_fixture piL_fixture
      v_fixture (some (1/100)) (1/100) 2 hA hnd⟩

/-- C6: `exact_optimum_state_values` raises iff the root-finder reports
non-convergence (the `scipy.optimize.root` call is modelled as the oracle
pair `(success, xs)`); on success it returns the dict keyed by `i2s` over
all state indices, mapping to the root-finder's solution values, and no
partial result is ever produced on failure. -/
theorem C6_exact_optimum_state_values (M : FiniteMDP S A) (success : Bool)
    (xs : List ℚ) (hlen : xs.length = M.states.length) :
    ((∃ e, exact_optimum_state_values M success xs = Except.error e)
        ↔ success = false) ∧
    (success = true →
      exact_optimum_state_values M success xs
        = Except.ok ((List.range M.states.length).map
            (fun i => (M.i2s i, xs.getD i 0)))) := by
  constructor
  · cases success <;> simp [exact_optimum_state_values]
  · intro hs
    subst hs
    simp only [exact_optimum_state_values, Bool.not_true, Bool.false_eq_true,
      if_false]
    rw [← hlen]
    congr 1
    apply List.ext_get?_iff.mpr
    intro n
    rw [List.get?_map, List.get?_enum, List.get?_map]
    by_cases hn : n < xs.length
    · rw [List.get?_eq_get hn, List.get?_range hn]
      simp [List.getD_eq_getElem xs 0 hn, List.get_eq_getElem,
        List.getElem?_eq_getElem hn]
    · have h1 : xs.get? n = none := List.get?_eq_none.mpr (by omega)
      have h2 : (List.range xs.length).get? n = none :=
        List.get?_eq_none.mpr (by simpa using (by omega : xs.length ≤ n))
      rw [h1, h2]
      rfl

/-- Witness for C6 on the 3-state fixture MDP, for both a converged and a
failed root-finder report. -/
theorem C6_exact_optimum_state_values_witness :
    (([1, 2, 3] : List ℚ).length = SimpleMDP.states.length) ∧
    (exact_optimum_state_values SimpleMDP true [1, 2, 3]
      = Except.ok ((List.range SimpleMDP.states.length).map
          (fun i => (SimpleMDP.i2s i, ([1, 2, 3] : List ℚ).getD i 0)))) ∧
    (∃ e, exact_optimum_state_values SimpleMDP false [1, 2, 3]
      = Except.error e) := by
  have hlen : ([1, 2, 3] : List ℚ).length = SimpleMDP.states.length := by
    simp [SimpleMDP]
  have h1 := C6_exact_optimum_state_values SimpleMDP true [1, 2, 3] hlen
  have h2 := C6_exact_optimum_state_values SimpleMDP false [1, 2, 3] hlen
  exact ⟨hlen, h1.2 rfl, h2.1.mpr rfl⟩

end RLSpec
